import Mathlib

/-!
Shallow embedding of `src/history.rs` (the history tree of the `tere` repository).

The Rust code stores the tree as reference-counted nodes: each
`HistoryTreeEntry` owns its `children` (a `RefCell<Vec<Rc<Self>>>`), refers to
its `parent` through a `Weak` pointer (a null weak for the root), and keeps a
`last_visited_child : Option<Weak<Self>>`.  The `HistoryTree` owns the `root`
and a `current_entry : RefCell<Rc<HistoryTreeEntry>>` cursor.

We embed this as a pure rose tree plus a cursor path:

* a node is `HistoryTreeEntry.mk name last_visited_child children`, where
  `last_visited_child : Option Nat` records the index of the designated child
  inside `children` (the `Weak` pointer in the source always targets one of the
  node's own children, and the children vector is only ever pushed to, so a
  position is a faithful model of the pointer identity);
* the `parent` weak pointer is represented positionally: the node at path
  `p ++ [i]` has the node at path `p` as its parent, and the root (path `[]`)
  has a null parent, exactly as in the source where the root is built with
  `Weak::new()`;
* the cursor `current_entry` is the path from the root to the current node;
  `go_up` follows the parent pointer, i.e. drops the last index.

`visit` in the source has a reachable panic: in the branch where a matching
child exists it runs
`Rc::get_mut(&mut previous_entry).unwrap().last_visited_child = ...`.
`Rc::get_mut` yields `Some` only when the `Rc` is the unique strong reference
and no weak reference exists.  We model that check faithfully (`rcGetMut`)
from the reference counts the structure dictates, and `visit` returns
`Option`: `none` is the panic.
-/

/-- One visited location.  Mirrors `struct HistoryTreeEntry` from the source:
`name`, `last_visited_child` (as the index of that child in `children`), and
the owned `children` list.  The `parent` weak pointer is positional (see the
file comment) and therefore not a field. -/
inductive HistoryTreeEntry : Type where
| mk (name : String) (last_visited_child : Option Nat)
    (children : List HistoryTreeEntry)

namespace HistoryTreeEntry

/-- The `name` field. -/
def name : HistoryTreeEntry → String
| .mk n _ _ => n

/-- The `last_visited_child` field, as an index into `children`. -/
def last_visited_child : HistoryTreeEntry → Option Nat
| .mk _ l _ => l

/-- The `children` field. -/
def children : HistoryTreeEntry → List HistoryTreeEntry
| .mk _ _ cs => cs

end HistoryTreeEntry

/-- The tree: the owned `root` and the `current_entry` cursor, the latter
modelled as the path (list of child indices) from the root to the current
node. -/
structure HistoryTree : Type where
  root : HistoryTreeEntry
  cursor : List Nat

/-- Follow a path of child indices down from a node; `none` when the path
leaves the tree.  This is how a positional cursor or parent pointer is
dereferenced in the embedding. -/
def getEntry : HistoryTreeEntry → List Nat → Option HistoryTreeEntry
| e, [] => some e
| e, i :: p =>
  match (HistoryTreeEntry.children e)[i]? with
  | some c => getEntry c p
  | none => none

/-- Apply `f` to the node at path `p`, leaving the rest of the tree as it is;
identity when the path leaves the tree. -/
def modifyAt (f : HistoryTreeEntry → HistoryTreeEntry) :
    HistoryTreeEntry → List Nat → HistoryTreeEntry
| e, [] => f e
| e, i :: p =>
  match (HistoryTreeEntry.children e)[i]? with
  | some c =>
    HistoryTreeEntry.mk (HistoryTreeEntry.name e)
      (HistoryTreeEntry.last_visited_child e)
      ((HistoryTreeEntry.children e).set i (modifyAt f c p))
  | none => e

/-- `self.current_entry.borrow_mut().children.borrow_mut().push(child)`:
append a child to a node, all other fields unchanged. -/
def appendChild (c : HistoryTreeEntry) (e : HistoryTreeEntry) :
    HistoryTreeEntry :=
  HistoryTreeEntry.mk (HistoryTreeEntry.name e)
    (HistoryTreeEntry.last_visited_child e)
    (HistoryTreeEntry.children e ++ [c])

/-- `....last_visited_child = Some(Rc::downgrade(&child))`: set the
`last_visited_child` field to (the index of) the given child. -/
def setLastVisitedChild (i : Nat) (e : HistoryTreeEntry) : HistoryTreeEntry :=
  HistoryTreeEntry.mk (HistoryTreeEntry.name e) (some i)
    (HistoryTreeEntry.children e)

/-- `self.current_entry.borrow().children.borrow().iter().find(|child| child.name == fname)`,
returned as the index of the first child whose name equals `fname`. -/
def findMatchingChild (fname : String) : List HistoryTreeEntry → Option Nat
| [] => none
| c :: cs =>
  if HistoryTreeEntry.name c == fname then some 0
  else (findMatchingChild fname cs).map (· + 1)

/-- `Rc::get_mut` succeeds exactly when the `Rc` at hand is the only strong
reference to the allocation and no weak reference to it exists. -/
def rcGetMut (strong weak : Nat) : Bool := strong == 1 && weak == 0

/-- Strong references to `previous_entry` at the `Rc::get_mut` call inside
`visit`: the local `previous_entry` binding itself, plus the owning reference
that keeps the node alive — the tree's `root` field when the previous current
entry is the root, its slot in its parent's `children` vector otherwise.  The
`current_entry` cell no longer counts: it was just `replace`d with the
matching child, which is a different node (a child of the previous entry). -/
def strongRefsToPreviousEntry : Nat := 1 + 1

/-- Weak references to the node at path `p`: every child of the node holds a
`Weak` parent pointer to it, and if its own parent's `last_visited_child`
designates it, that is one more weak reference.  (These are the only `Weak`s
the structure creates; the root's null `Weak::new()` parent references no
allocation.) -/
def weakRefsTo (root : HistoryTreeEntry) (p : List Nat) : Nat :=
  (match getEntry root p with
   | some e => (HistoryTreeEntry.children e).length
   | none => 0) +
  (match p.getLast? with
   | some i =>
     match getEntry root p.dropLast with
     | some par =>
       if HistoryTreeEntry.last_visited_child par = some i then 1 else 0
     | none => 0
   | none => 0)

/-- `HistoryTree::visit`, following the source line by line.  Search the
current entry's children for `fname`.  If a matching child is found, the
cursor is replaced by that child and the code then runs
`Rc::get_mut(&mut previous_entry).unwrap().last_visited_child = Some(...)`;
`unwrap` panics when `Rc::get_mut` returns `None`, which we model as `none`.
If no child matches, a fresh node (empty children, no last visited child,
parent pointing at the current entry) is pushed onto the current entry's
children and becomes current. -/
def visit (t : HistoryTree) (fname : String) : Option HistoryTree :=
  match getEntry t.root t.cursor with
  | none => none
  | some cur =>
    match findMatchingChild fname (HistoryTreeEntry.children cur) with
    | some i =>
      if rcGetMut strongRefsToPreviousEntry (weakRefsTo t.root t.cursor) then
        some { root := modifyAt (setLastVisitedChild i) t.root t.cursor,
               cursor := t.cursor ++ [i] }
      else none
    | none =>
      some { root :=
               modifyAt (appendChild (HistoryTreeEntry.mk fname none []))
                 t.root t.cursor,
             cursor := t.cursor ++ [(HistoryTreeEntry.children cur).length] }

/-- `HistoryTree::go_up`: upgrade the current entry's parent pointer; if it
resolves (the current entry is not the root) move the cursor there, otherwise
do nothing.  Positionally: drop the last index of the cursor path. -/
def go_up (t : HistoryTree) : HistoryTree :=
  match t.cursor.getLast? with
  | some _ => { t with cursor := t.cursor.dropLast }
  | none => t

/-- `HistoryTree::current_entry`: the node the cursor designates. -/
def current_entry (t : HistoryTree) : Option HistoryTreeEntry :=
  getEntry t.root t.cursor

/-- `init_history_tree` from the source's test module: a root named `"/"`
with no children and no last visited child, the cursor at the root. -/
def initHistoryTree : HistoryTree :=
  { root := HistoryTreeEntry.mk "/" none [], cursor := [] }

/-- One call against the tree: the API has exactly `visit` and `go_up` as
mutating operations. -/
inductive Op : Type where
| visit (fname : String)
| goUp

/-- Run one operation; `none` is a panic. -/
def applyOp (t : HistoryTree) : Op → Option HistoryTree
| .visit fname => visit t fname
| .goUp => some (go_up t)

/-- Run a sequence of operations from a starting tree, stopping at a panic. -/
def runOps : HistoryTree → List Op → Option HistoryTree
| t, [] => some t
| t, op :: ops =>
  match applyOp t op with
  | some t2 => runOps t2 ops
  | none => none

/-! Basic simp lemmas for the embedding. -/

namespace HistoryTreeEntry

@[simp] theorem name_mk (n : String) (l : Option Nat)
    (cs : List HistoryTreeEntry) : name (mk n l cs) = n := rfl

@[simp] theorem last_visited_child_mk (n : String) (l : Option Nat)
    (cs : List HistoryTreeEntry) : last_visited_child (mk n l cs) = l := rfl

@[simp] theorem children_mk (n : String) (l : Option Nat)
    (cs : List HistoryTreeEntry) : children (mk n l cs) = cs := rfl

end HistoryTreeEntry

@[simp] theorem getEntry_nil (e : HistoryTreeEntry) : getEntry e [] = some e :=
  rfl

theorem getEntry_cons (e : HistoryTreeEntry) (i : Nat) (p : List Nat) :
    getEntry e (i :: p) =
      ((HistoryTreeEntry.children e)[i]?).bind fun c => getEntry c p := by
  cases h : (HistoryTreeEntry.children e)[i]? <;> simp [getEntry, h]

theorem getEntry_append (p q : List Nat) (e : HistoryTreeEntry) :
    getEntry e (p ++ q) = (getEntry e p).bind fun d => getEntry d q := by
  induction p generalizing e with
  | nil => simp
  | cons i p ih =>
    simp only [List.cons_append, getEntry_cons]
    cases h : (HistoryTreeEntry.children e)[i]? with
    | none => simp
    | some c => simp [ih]

theorem getElem?_isSome_lt {α : Type} {l : List α} {i : Nat} {a : α}
    (h : l[i]? = some a) : i < l.length := by
  by_contra hlt
  rw [List.getElem?_eq_none (Nat.le_of_not_lt hlt)] at h
  exact Option.noConfusion h

theorem getEntry_modifyAt (f : HistoryTreeEntry → HistoryTreeEntry)
    (p : List Nat) :
    ∀ e cur, getEntry e p = some cur →
      getEntry (modifyAt f e p) p = some (f cur) := by
  induction p with
  | nil =>
    intro e cur h
    rw [getEntry_nil, Option.some.injEq] at h
    subst h
    simp [modifyAt]
  | cons i p ih =>
    intro e cur h
    rw [getEntry_cons] at h
    cases hc : (HistoryTreeEntry.children e)[i]? with
    | none => rw [hc] at h; exact Option.noConfusion h
    | some c =>
      rw [hc, Option.some_bind] at h
      have hlt : i < (HistoryTreeEntry.children e).length := getElem?_isSome_lt hc
      unfold modifyAt
      rw [hc, getEntry_cons, HistoryTreeEntry.children_mk,
        List.getElem?_set_eq_of_lt _ hlt, Option.some_bind]
      exact ih c cur h

theorem rcGetMut_at_visit_is_false (w : Nat) :
    rcGetMut strongRefsToPreviousEntry w = false := by
  simp [rcGetMut, strongRefsToPreviousEntry]

/-- Inversion for a successful `visit`: the only way `visit` completes is the
new-child branch (the matching-child branch always hits the failing
`Rc::get_mut(..).unwrap()`), so a successful call determines the resulting
tree completely. -/
theorem visit_eq_some {t : HistoryTree} {fname : String} {t2 : HistoryTree}
    (h : visit t fname = some t2) :
    ∃ cur, getEntry t.root t.cursor = some cur ∧
      findMatchingChild fname (HistoryTreeEntry.children cur) = none ∧
      t2 = { root := modifyAt (appendChild (HistoryTreeEntry.mk fname none []))
                       t.root t.cursor,
             cursor :=
               t.cursor ++ [(HistoryTreeEntry.children cur).length] } := by
  unfold visit at h
  split at h
  next => exact Option.noConfusion h
  next cur hg =>
    split at h
    next i hf =>
      rw [rcGetMut_at_visit_is_false, if_neg Bool.false_ne_true] at h
      exact Option.noConfusion h
    next hf =>
      rw [Option.some.injEq] at h
      exact ⟨cur, hg, hf, h.symm⟩

/-- The other direction: from a current entry with no matching child, `visit`
completes and builds exactly the new-child tree. -/
theorem visit_eq_some_of_no_match {t : HistoryTree} {fname : String}
    {cur : HistoryTreeEntry} (hg : getEntry t.root t.cursor = some cur)
    (hf : findMatchingChild fname (HistoryTreeEntry.children cur) = none) :
    visit t fname =
      some { root := modifyAt (appendChild (HistoryTreeEntry.mk fname none []))
                       t.root t.cursor,
             cursor :=
               t.cursor ++ [(HistoryTreeEntry.children cur).length] } := by
  unfold visit
  split
  next hgn => exact Option.noConfusion (hg.symm.trans hgn)
  next cur2 hg2 =>
    injection hg.symm.trans hg2 with hcc
    subst hcc
    split
    next i hf2 => exact Option.noConfusion (hf.symm.trans hf2)
    next => rfl

/-- Whenever the current entry has a child matching the name, `visit` panics:
`Rc::get_mut` sees a second strong reference (and at least one weak one), so
the `unwrap` fails. -/
theorem visit_eq_none_of_match {t : HistoryTree} {fname : String}
    {cur : HistoryTreeEntry} {i : Nat}
    (hg : getEntry t.root t.cursor = some cur)
    (hf : findMatchingChild fname (HistoryTreeEntry.children cur) = some i) :
    visit t fname = none := by
  unfold visit
  split
  next hgn => rfl
  next cur2 hg2 =>
    injection hg.symm.trans hg2 with hcc
    subst hcc
    split
    next j hf2 => rw [rcGetMut_at_visit_is_false, if_neg Bool.false_ne_true]
    next hf2 => exact Option.noConfusion (hf.symm.trans hf2)

/-- Claim C1: refuted by the code — `visit` is not total.  On a fresh tree,
`visit "foo"; go_up; visit "foo"` reaches the matching-child branch, where
`Rc::get_mut(&mut previous_entry).unwrap()` panics: the previous entry (the
root) is also held by the tree's `root` field and is weakly referenced by the
child's parent pointer, so `Rc::get_mut` returns `None`.  The run evaluates
to `none` (the panic). -/
theorem visit_revisit_panics :
    runOps initHistoryTree [Op.visit "foo", Op.goUp, Op.visit "foo"] =
      none := rfl

/-- Claim C2, Scenario E: after `visit "foo"; go_up` the root has exactly one
child, named `"foo"`; but the second `visit "foo"` does not reuse that child —
it panics (evaluates to `none`) at the `Rc::get_mut(..).unwrap()` in the
matching-child branch, so the claimed successful reuse does not happen. -/
theorem scenarioE_one_child_then_panic :
    runOps initHistoryTree [Op.visit "foo", Op.goUp] =
      some { root := HistoryTreeEntry.mk "/" none
                       [HistoryTreeEntry.mk "foo" none []],
             cursor := [] } ∧
    visit { root := HistoryTreeEntry.mk "/" none
                      [HistoryTreeEntry.mk "foo" none []],
            cursor := [] } "foo" = none :=
  ⟨rfl, rfl⟩

/-- Claim C3: refuted by the code.  When `visit` finds an existing child
(here the child `"b"` of the root), the call panics at
`Rc::get_mut(&mut previous_entry).unwrap()` before the assignment to
`last_visited_child` can run, so the bookkeeping update never happens; the
whole call evaluates to `none` (the panic). -/
theorem revisit_panics_before_lvc_update :
    visit { root := HistoryTreeEntry.mk "/" none
              [HistoryTreeEntry.mk "a" none [],
               HistoryTreeEntry.mk "b" none []],
            cursor := [] } "b" = none := rfl

/-- Claim C4: identity after visit.  Whenever a `visit fname` call completes
(it only completes in the new-child branch; the matching-child branch always
panics), the current entry afterwards is named `fname`. -/
theorem visit_current_entry_name (t : HistoryTree) (fname : String)
    (t2 : HistoryTree) (h : visit t fname = some t2) :
    (current_entry t2).map HistoryTreeEntry.name = some fname := by
  obtain ⟨cur, hg, hf, ht2⟩ := visit_eq_some h
  subst ht2
  unfold current_entry
  simp only [getEntry_append]
  rw [getEntry_modifyAt _ _ _ _ hg, Option.some_bind, getEntry_cons]
  simp [appendChild, List.getElem?_concat_length]

/-- Witness for C4 at a concrete input: visiting `"foo"` on the fresh tree. -/
theorem visit_current_entry_name_witness :
    (current_entry { root := HistoryTreeEntry.mk "/" none
                       [HistoryTreeEntry.mk "foo" none []],
                     cursor := [0] }).map HistoryTreeEntry.name =
      some "foo" :=
  visit_current_entry_name initHistoryTree "foo"
    { root := HistoryTreeEntry.mk "/" none [HistoryTreeEntry.mk "foo" none []],
      cursor := [0] } (by rfl)

/-- Claim C5: parent linkage.  A completed `visit fname` from current entry
`cur` leaves the cursor one step below its old position (its parent path is
the old cursor), and the node at the old position is exactly `cur` with the
fresh node `⟨fname, none, []⟩` appended to its children. -/
theorem visit_parent_linkage (t : HistoryTree) (fname : String)
    (t2 : HistoryTree) (cur : HistoryTreeEntry)
    (h : visit t fname = some t2)
    (hg : getEntry t.root t.cursor = some cur) :
    t2.cursor.dropLast = t.cursor ∧
    getEntry t2.root t.cursor =
      some (appendChild (HistoryTreeEntry.mk fname none []) cur) := by
  obtain ⟨cur2, hg2, hf, ht2⟩ := visit_eq_some h
  injection hg.symm.trans hg2 with hcc
  subst hcc
  subst ht2
  exact ⟨by simp, getEntry_modifyAt _ _ _ _ hg⟩

/-- Witness for C5 at a concrete input: visiting `"foo"` on the fresh tree;
the new cursor `[0]` has the old cursor `[]` as parent path, and the root
gained the fresh child. -/
theorem visit_parent_linkage_witness :
    ([0] : List Nat).dropLast = [] ∧
    getEntry (HistoryTreeEntry.mk "/" none
      [HistoryTreeEntry.mk "foo" none []]) [] =
      some (appendChild (HistoryTreeEntry.mk "foo" none [])
        (HistoryTreeEntry.mk "/" none [])) :=
  visit_parent_linkage initHistoryTree "foo"
    { root := HistoryTreeEntry.mk "/" none [HistoryTreeEntry.mk "foo" none []],
      cursor := [0] }
    (HistoryTreeEntry.mk "/" none []) (by rfl) (by rfl)

/-- Claim C6: `go_up` at the root is a silent no-op — with an empty cursor
path the parent weak pointer is null, nothing changes, and any number of
consecutive calls stays at the root; away from the root it moves the cursor
to the parent (drops the last path index), touching nothing else. -/
theorem go_up_root_floor (t : HistoryTree) :
    (t.cursor = [] → ∀ n : Nat, go_up^[n] t = t) ∧
    (t.cursor ≠ [] →
      go_up t = { root := t.root, cursor := t.cursor.dropLast }) := by
  constructor
  · intro hnil
    have h1 : go_up t = t := by unfold go_up; rw [hnil]; rfl
    intro n
    induction n with
    | zero => rfl
    | succ n ih => rw [Function.iterate_succ_apply, h1, ih]
  · intro hne
    obtain ⟨r, c⟩ := t
    cases c with
    | nil => exact absurd rfl hne
    | cons a l => rfl

/-- Witness for C6: three redundant `go_up`s on the fresh tree do nothing,
and one `go_up` below the root moves to the parent. -/
theorem go_up_root_floor_witness :
    go_up^[3] initHistoryTree = initHistoryTree ∧
    go_up { root := HistoryTreeEntry.mk "/" none
              [HistoryTreeEntry.mk "a" none []],
            cursor := [0] } =
      { root := HistoryTreeEntry.mk "/" none [HistoryTreeEntry.mk "a" none []],
        cursor := ([0] : List Nat).dropLast } :=
  ⟨(go_up_root_floor initHistoryTree).1 rfl 3,
   (go_up_root_floor (HistoryTree.mk
      (HistoryTreeEntry.mk "/" none [HistoryTreeEntry.mk "a" none []])
      [0])).2 (by simp)⟩

/-- Claim C7: up/down round trip.  A completed `visit` followed by one
`go_up` puts the cursor back at the position that was current before the
visit (the tree keeps the newly grown child; only the cursor moves back). -/
theorem visit_then_go_up (t : HistoryTree) (fname : String)
    (t2 : HistoryTree) (h : visit t fname = some t2) :
    go_up t2 = { root := t2.root, cursor := t.cursor } := by
  obtain ⟨cur, hg, hf, ht2⟩ := visit_eq_some h
  subst ht2
  unfold go_up
  split
  next b hb => simp
  next hb => rw [List.getLast?_concat] at hb; exact Option.noConfusion hb

/-- Witness for C7: visiting `"foo"` on the fresh tree and going up returns
the cursor to the root. -/
theorem visit_then_go_up_witness :
    go_up { root := HistoryTreeEntry.mk "/" none
              [HistoryTreeEntry.mk "foo" none []],
            cursor := [0] } =
      { root := HistoryTreeEntry.mk "/" none [HistoryTreeEntry.mk "foo" none []],
        cursor := [] } :=
  visit_then_go_up initHistoryTree "foo"
    { root := HistoryTreeEntry.mk "/" none [HistoryTreeEntry.mk "foo" none []],
      cursor := [0] } (by rfl)

/-- Claim C10: frame effect of the new-child branch.  When no child of the
current entry matches, `visit` completes and the node at the old cursor
position keeps its `name` and its `last_visited_child` exactly as they were;
the only change is the fresh child `⟨fname, none, []⟩` — with no last visited
child and no children of its own — appended at the end. -/
theorem visit_new_child_frame (t : HistoryTree) (fname : String)
    (cur : HistoryTreeEntry) (hg : getEntry t.root t.cursor = some cur)
    (hf : findMatchingChild fname (HistoryTreeEntry.children cur) = none) :
    ∃ t2, visit t fname = some t2 ∧
      getEntry t2.root t.cursor =
        some (HistoryTreeEntry.mk (HistoryTreeEntry.name cur)
          (HistoryTreeEntry.last_visited_child cur)
          (HistoryTreeEntry.children cur ++
            [HistoryTreeEntry.mk fname none []])) :=
  ⟨_, visit_eq_some_of_no_match hg hf, getEntry_modifyAt _ _ _ _ hg⟩

/-- Witness for C10: from a root whose `last_visited_child` is `some 0`,
visiting the unseen name `"b"` keeps that field and appends the fresh
child. -/
theorem visit_new_child_frame_witness :
    ∃ t2, visit { root := HistoryTreeEntry.mk "/" (some 0)
                    [HistoryTreeEntry.mk "a" none []],
                  cursor := [] } "b" = some t2 ∧
      getEntry t2.root [] =
        some (HistoryTreeEntry.mk "/" (some 0)
          [HistoryTreeEntry.mk "a" none [],
           HistoryTreeEntry.mk "b" none []]) :=
  visit_new_child_frame
    { root := HistoryTreeEntry.mk "/" (some 0) [HistoryTreeEntry.mk "a" none []],
      cursor := [] } "b"
    (HistoryTreeEntry.mk "/" (some 0) [HistoryTreeEntry.mk "a" none []])
    (by rfl) (by rfl)

/-! Helper lemmas for the two global invariants (claims about all operation
sequences): cursor reachability and sibling-name uniqueness. -/

theorem go_up_root (t : HistoryTree) : (go_up t).root = t.root := by
  unfold go_up
  split
  next => rfl
  next => rfl

theorem getEntry_dropLast_isSome (r : HistoryTreeEntry) (p : List Nat)
    (h : (getEntry r p).isSome = true) :
    (getEntry r p.dropLast).isSome = true := by
  rcases eq_or_ne p [] with hp | hp
  · subst hp; simp
  · have hsplit := List.dropLast_append_getLast hp
    rw [← hsplit, getEntry_append] at h
    cases hd : getEntry r p.dropLast with
    | none => rw [hd] at h; exact absurd h (by simp)
    | some d => simp

theorem name_modifyAt (f : HistoryTreeEntry → HistoryTreeEntry)
    (hf : ∀ x, HistoryTreeEntry.name (f x) = HistoryTreeEntry.name x)
    (e : HistoryTreeEntry) (p : List Nat) :
    HistoryTreeEntry.name (modifyAt f e p) = HistoryTreeEntry.name e := by
  cases p with
  | nil => exact hf e
  | cons i p =>
    unfold modifyAt
    cases hc : (HistoryTreeEntry.children e)[i]? with
    | none => rfl
    | some c => rfl

theorem set_of_getElem_eq {α : Type} :
    ∀ (l : List α) (i : Nat) (a : α), l[i]? = some a → l.set i a = l := by
  intro l
  induction l with
  | nil => intro i a h; simp at h
  | cons b t ih =>
    intro i a h
    cases i with
    | zero => simp at h; subst h; rfl
    | succ i =>
      simp only [List.getElem?_cons_succ] at h
      simp [List.set, ih i a h]

theorem getEntry_leaf (n : String) (l : Option Nat) (q : List Nat)
    (e : HistoryTreeEntry)
    (h : getEntry (HistoryTreeEntry.mk n l []) q = some e) :
    q = [] ∧ e = HistoryTreeEntry.mk n l [] := by
  cases q with
  | nil =>
    rw [getEntry_nil, Option.some.injEq] at h
    exact ⟨rfl, h.symm⟩
  | cons j q =>
    rw [getEntry_cons] at h
    simp at h

theorem findMatchingChild_eq_none (fname : String) :
    ∀ cs, findMatchingChild fname cs = none →
      ∀ c ∈ cs, HistoryTreeEntry.name c ≠ fname := by
  intro cs
  induction cs with
  | nil => simp
  | cons c cs ih =>
    intro h d hd
    unfold findMatchingChild at h
    by_cases hc : (HistoryTreeEntry.name c == fname) = true
    · rw [if_pos hc] at h; exact Option.noConfusion h
    · rw [if_neg hc] at h
      rcases List.mem_cons.mp hd with hd | hd
      · subst hd
        intro heq
        exact hc (by simp [heq])
      · have hrest : findMatchingChild fname cs = none := by
          cases hfind : findMatchingChild fname cs with
          | none => rfl
          | some i => rw [hfind] at h; exact Option.noConfusion h
        exact ih hrest d hd

theorem applyOp_cursor_isSome (t t2 : HistoryTree) (op : Op)
    (hv : (getEntry t.root t.cursor).isSome = true)
    (h : applyOp t op = some t2) :
    (getEntry t2.root t2.cursor).isSome = true := by
  cases op with
  | visit fname =>
    obtain ⟨cur, hg, hf, ht2⟩ := visit_eq_some h
    subst ht2
    simp only [getEntry_append]
    rw [getEntry_modifyAt _ _ _ _ hg, Option.some_bind, getEntry_cons]
    simp [appendChild, List.getElem?_concat_length]
  | goUp =>
    rw [applyOp, Option.some.injEq] at h
    subst h
    rw [go_up_root]
    unfold go_up
    split
    next b hb => exact getEntry_dropLast_isSome _ _ hv
    next hb => exact hv

/-- Claim C8: cursor reachability.  After any sequence of `visit` and `go_up`
calls that completes (no panic) from the fresh tree, the cursor path still
resolves to a node of the tree: the current entry is the root or a descendant
reachable through the owning child lists. -/
theorem cursor_always_reachable (ops : List Op) (t : HistoryTree)
    (h : runOps initHistoryTree ops = some t) :
    (getEntry t.root t.cursor).isSome = true := by
  suffices H : ∀ (l : List Op) (t0 u : HistoryTree),
      (getEntry t0.root t0.cursor).isSome = true →
      runOps t0 l = some u → (getEntry u.root u.cursor).isSome = true by
    exact H ops initHistoryTree t (by rfl) h
  intro l
  induction l with
  | nil =>
    intro t0 u h0 hr
    rw [runOps, Option.some.injEq] at hr
    subst hr
    exact h0
  | cons op rest ih =>
    intro t0 u h0 hr
    unfold runOps at hr
    split at hr
    next t1 ha => exact ih t1 u (applyOp_cursor_isSome t0 t1 op h0 ha) hr
    next => exact Option.noConfusion hr

/-- Witness for C8: a concrete completing run (`visit "foo"`, `visit "bar"`,
`go_up`, `visit "baz"`) ends with the cursor on a reachable node. -/
theorem cursor_always_reachable_witness :
    (getEntry (HistoryTreeEntry.mk "/" none
      [HistoryTreeEntry.mk "foo" none
        [HistoryTreeEntry.mk "bar" none [],
         HistoryTreeEntry.mk "baz" none []]]) [0, 1]).isSome = true :=
  cursor_always_reachable
    [Op.visit "foo", Op.visit "bar", Op.goUp, Op.visit "baz"]
    (HistoryTree.mk (HistoryTreeEntry.mk "/" none
      [HistoryTreeEntry.mk "foo" none
        [HistoryTreeEntry.mk "bar" none [],
         HistoryTreeEntry.mk "baz" none []]]) [0, 1])
    (by rfl)

theorem nodup_names_preserved (fname : String) :
    ∀ (p : List Nat) (r cur : HistoryTreeEntry),
      getEntry r p = some cur →
      findMatchingChild fname (HistoryTreeEntry.children cur) = none →
      (∀ q e, getEntry r q = some e →
        ((HistoryTreeEntry.children e).map HistoryTreeEntry.name).Nodup) →
      ∀ q e,
        getEntry
          (modifyAt (appendChild (HistoryTreeEntry.mk fname none [])) r p) q =
          some e →
        ((HistoryTreeEntry.children e).map HistoryTreeEntry.name).Nodup := by
  intro p
  induction p with
  | nil =>
    intro r cur hg hf hall q e he
    rw [getEntry_nil, Option.some.injEq] at hg
    subst hg
    rw [show modifyAt (appendChild (HistoryTreeEntry.mk fname none [])) r [] =
        appendChild (HistoryTreeEntry.mk fname none []) r from rfl] at he
    cases q with
    | nil =>
      rw [getEntry_nil, Option.some.injEq] at he
      subst he
      have hnotin :
          fname ∉ (HistoryTreeEntry.children r).map HistoryTreeEntry.name := by
        intro hm
        rcases List.mem_map.mp hm with ⟨c, hcmem, hname⟩
        exact findMatchingChild_eq_none fname _ hf c hcmem hname
      have hold := hall [] r (by rfl)
      simp only [appendChild, HistoryTreeEntry.children_mk, List.map_append]
      refine hold.append (by simp) ?_
      intro x hx hx2
      rw [List.map_singleton, List.mem_singleton] at hx2
      subst hx2
      exact absurd hx hnotin
    | cons j q =>
      rw [getEntry_cons] at he
      simp only [appendChild, HistoryTreeEntry.children_mk] at he
      rcases Nat.lt_trichotomy j (HistoryTreeEntry.children r).length
        with hj | hj | hj
      · rw [List.getElem?_append_left hj] at he
        cases hc : (HistoryTreeEntry.children r)[j]? with
        | none => rw [hc] at he; exact absurd he (by simp)
        | some c =>
          rw [hc, Option.some_bind] at he
          exact hall (j :: q) e
            (by rw [getEntry_cons, hc, Option.some_bind]; exact he)
      · subst hj
        rw [List.getElem?_concat_length, Option.some_bind] at he
        obtain ⟨hq, hee⟩ := getEntry_leaf _ _ _ _ he
        subst hee
        simp
      · rw [List.getElem?_eq_none (by simp [Nat.succ_le_iff]; omega)] at he
        exact absurd he (by simp)
  | cons i p ih =>
    intro r cur hg hf hall q e he
    rw [getEntry_cons] at hg
    cases hc : (HistoryTreeEntry.children r)[i]? with
    | none => rw [hc] at hg; exact absurd hg (by simp)
    | some c =>
      rw [hc, Option.some_bind] at hg
      unfold modifyAt at he
      split at he
      next c2 hc2 =>
        injection hc.symm.trans hc2 with hcc
        subst hcc
        cases q with
        | nil =>
          rw [getEntry_nil, Option.some.injEq] at he
          subst he
          simp only [HistoryTreeEntry.children_mk]
          have hname :
              HistoryTreeEntry.name
                (modifyAt (appendChild (HistoryTreeEntry.mk fname none []))
                  c p) = HistoryTreeEntry.name c :=
            name_modifyAt (appendChild (HistoryTreeEntry.mk fname none []))
              (fun x => rfl) c p
          have hmap :
              ((HistoryTreeEntry.children r).map
                HistoryTreeEntry.name)[i]? =
                some (HistoryTreeEntry.name c) := by
            rw [List.getElem?_map, hc]; rfl
          rw [List.map_set, hname, set_of_getElem_eq _ _ _ hmap]
          exact hall [] r (by rfl)
        | cons j q =>
          rw [getEntry_cons] at he
          simp only [HistoryTreeEntry.children_mk] at he
          by_cases hij : j = i
          · subst hij
            have hlt : j < (HistoryTreeEntry.children r).length :=
              getElem?_isSome_lt hc
            rw [List.getElem?_set_eq_of_lt _ hlt, Option.some_bind] at he
            refine ih c cur hg hf ?_ q e he
            intro q2 e2 h2
            exact hall (j :: q2) e2
              (by rw [getEntry_cons, hc, Option.some_bind]; exact h2)
          · rw [List.getElem?_set_ne (Ne.symm hij)] at he
            cases hcj : (HistoryTreeEntry.children r)[j]? with
            | none => rw [hcj] at he; exact absurd he (by simp)
            | some cj =>
              rw [hcj, Option.some_bind] at he
              exact hall (j :: q) e
                (by rw [getEntry_cons, hcj, Option.some_bind]; exact he)
      next hc2 => exact Option.noConfusion (hc.symm.trans hc2)

theorem applyOp_nodup (t t2 : HistoryTree) (op : Op)
    (hall : ∀ q e, getEntry t.root q = some e →
      ((HistoryTreeEntry.children e).map HistoryTreeEntry.name).Nodup)
    (h : applyOp t op = some t2) :
    ∀ q e, getEntry t2.root q = some e →
      ((HistoryTreeEntry.children e).map HistoryTreeEntry.name).Nodup := by
  cases op with
  | visit fname =>
    obtain ⟨cur, hg, hf, ht2⟩ := visit_eq_some h
    subst ht2
    exact nodup_names_preserved fname t.cursor t.root cur hg hf hall
  | goUp =>
    rw [applyOp, Option.some.injEq] at h
    subst h
    intro q e he
    rw [go_up_root] at he
    exact hall q e he

/-- Claim C9: sibling-name uniqueness.  After any sequence of `visit` and
`go_up` calls that completes from the fresh tree, no node of the tree has two
direct children carrying the same name (the property is stated per parent:
every reachable node has pairwise-distinct child names). -/
theorem sibling_names_unique (ops : List Op) (t : HistoryTree)
    (h : runOps initHistoryTree ops = some t) (p : List Nat)
    (e : HistoryTreeEntry) (he : getEntry t.root p = some e) :
    ((HistoryTreeEntry.children e).map HistoryTreeEntry.name).Nodup := by
  suffices H : ∀ (l : List Op) (t0 u : HistoryTree),
      (∀ q d, getEntry t0.root q = some d →
        ((HistoryTreeEntry.children d).map HistoryTreeEntry.name).Nodup) →
      runOps t0 l = some u →
      ∀ q d, getEntry u.root q = some d →
        ((HistoryTreeEntry.children d).map HistoryTreeEntry.name).Nodup by
    refine H ops initHistoryTree t ?_ h p e he
    intro q d hd
    obtain ⟨hq, hdd⟩ := getEntry_leaf _ _ _ _ hd
    subst hdd
    simp
  intro l
  induction l with
  | nil =>
    intro t0 u h0 hr
    rw [runOps, Option.some.injEq] at hr
    subst hr
    exact h0
  | cons op rest ih =>
    intro t0 u h0 hr
    unfold runOps at hr
    split at hr
    next t1 ha => exact ih t1 u (applyOp_nodup t0 t1 op h0 ha) hr
    next => exact Option.noConfusion hr

/-- Witness for C9: a concrete completing run (`visit "foo"`, `visit "bar"`,
`go_up`, `visit "baz"`); the node `"foo"` then has the two distinct child
names `"bar"` and `"baz"`. -/
theorem sibling_names_unique_witness :
    ((HistoryTreeEntry.children (HistoryTreeEntry.mk "foo" none
        [HistoryTreeEntry.mk "bar" none [],
         HistoryTreeEntry.mk "baz" none []])).map
      HistoryTreeEntry.name).Nodup :=
  sibling_names_unique
    [Op.visit "foo", Op.visit "bar", Op.goUp, Op.visit "baz"]
    (HistoryTree.mk (HistoryTreeEntry.mk "/" none
      [HistoryTreeEntry.mk "foo" none
        [HistoryTreeEntry.mk "bar" none [],
         HistoryTreeEntry.mk "baz" none []]]) [0, 1])
    (by rfl) [0]
    (HistoryTreeEntry.mk "foo" none
      [HistoryTreeEntry.mk "bar" none [],
       HistoryTreeEntry.mk "baz" none []])
    (by rfl)
